import Mathlib

/-!
Verification development for the GTGT genomic interval and variant algebra.

Shallow embedding of:
  - the pure range algebra of src/gtgt/range.py (overlap, intersect, subtract);
  - the Bed record of src/GTGT/bed.py (construction, blocks, _zero_out,
    intersect, serialization);
  - the Transcript of src/GTGT/transcript.py;
  - the _Variant relations and combine_variants_deletion of src/gtgt/mutalyzer.py.

Python exceptions are modelled with Option/Except: a raised exception is
Option.none or Except.error.  Machine integers are Int (Python ints are
unbounded, so no modular arithmetic is involved).
-/

/-- A half open integer range, as used throughout the code base. -/
abbrev Range : Type := Int × Int

namespace rangepy

/-- Embedding of `intersect` from src/gtgt/range.py: the single overlap of two
half open ranges, or the empty list when they do not meet. -/
def intersect (a b : Range) : List Range :=
  if max a.1 b.1 + 1 > min a.2 b.2 then [] else [(max a.1 b.1, min a.2 b.2)]

/-- Embedding of `overlap` from src/gtgt/range.py: ranges overlap when the
intersection is not empty. -/
def overlap (a b : Range) : Bool :=
  ¬ (intersect a b).isEmpty

/-- Fuel bound for the two pointer sweep of `subtract`: every loop iteration
either consumes a range from one of the two lists or strictly shrinks the
current range `A`, so this quantity strictly decreases. -/
def sweepFuel (A : Range) (as' bs : List Range) : Nat :=
  (A.2 - A.1).toNat + (as'.map (fun r => (r.2 - r.1).toNat + 1)).sum
    + bs.length + 1

/-- Embedding of the two pointer sweep inside `subtract` from
src/gtgt/range.py.  `A` is the current range from the first list, `as'` the
not yet consumed part of the first list and `bs` the not yet consumed part of
the second list.  `Option.none` models the IndexError raised by
`intersect(A, B)[0]` when the intersection of two touching ranges is empty.
The fuel argument only makes the recursion structural; `sweepFuel` is a
sufficient amount, as the loop measure strictly decreases each iteration. -/
def subtractAux : Nat → Range → List Range → List Range → Option (List Range)
  | 0, _, _, _ => none
  | fuel + 1, A, as', bs =>
    match bs with
    | [] => some (A :: as')
    | B :: bs' =>
      if A.2 ≤ B.1 then
        -- A before B: emit A and advance A
        match as' with
        | [] => some [A]
        | A' :: as'' =>
          (subtractAux fuel A' as'' (B :: bs')).map (fun l => A :: l)
      else if A.1 ≥ B.2 then
        -- A after B: advance B
        subtractAux fuel A as' bs'
      else
        match intersect A B with
        | [] => none
        | o :: _ =>
          if B = o then
            -- B is in the middle of A
            (subtractAux fuel (o.2, A.2) as' (B :: bs')).map
              (fun l => (A.1, o.1) :: l)
          else if A = o then
            -- B fully overlaps A
            match as' with
            | [] => some []
            | A' :: as'' => subtractAux fuel A' as'' (B :: bs')
          else if o.2 = B.2 then
            -- B overlaps the start of A
            subtractAux fuel (o.2, A.2) as' bs'
          else if A.2 = o.2 then
            -- B overlaps the end of A
            (match as' with
             | [] => some []
             | A' :: as'' => subtractAux fuel A' as'' (B :: bs')).map
              (fun l => (A.1, o.1) :: l)
          else
            none

/-- Embedding of `subtract` from src/gtgt/range.py: subtract the regions in
`b` from `a`, dropping zero sized results. -/
def subtract (a b : List Range) : Option (List Range) :=
  match a with
  | [] => some []
  | A :: as' =>
    (subtractAux (sweepFuel A as' b) A as' b).map
      (List.filter (fun x => decide (x.1 < x.2)))

end rangepy

-- sanity checks of the embedding on cases from the repository's test suite
example : rangepy.intersect (0, 10) (10, 20) = [] := by decide
example : rangepy.intersect (2, 5) (3, 6) = [(3, 5)] := by decide
example : rangepy.intersect (3, 6) (3, 6) = [(3, 6)] := by decide
example : rangepy.overlap (0, 3) (3, 6) = false := by decide
example : rangepy.overlap (0, 3) (2, 6) = true := by decide
example : rangepy.subtract [(0, 10)] [] = some [(0, 10)] := by decide
example : rangepy.subtract [(0, 10)] [(0, 10)] = some [] := by decide
example : rangepy.subtract [(0, 10)] [(3, 5)] = some [(0, 3), (5, 10)] := by
  decide
example :
    rangepy.subtract [(0, 10), (20, 40), (50, 60), (70, 100)] [(0, 10), (20, 40)]
      = some [(50, 60), (70, 100)] := by decide

/-- The set of integers covered by a list of half open ranges. -/
def covers (l : List Range) (x : Int) : Prop :=
  ∃ r ∈ l, r.1 ≤ x ∧ x < r.2

@[simp] theorem covers_nil (x : Int) : covers ([] : List Range) x ↔ False := by
  simp [covers]

@[simp] theorem covers_cons (r : Range) (l : List Range) (x : Int) :
    covers (r :: l) x ↔ (r.1 ≤ x ∧ x < r.2) ∨ covers l x := by
  simp [covers]

/-- A list of ranges that is sorted in ascending order with pairwise disjoint
members: every range ends no later than any later range starts. -/
def SortedDisjoint (l : List Range) : Prop :=
  List.Pairwise (fun r s : Range => r.2 ≤ s.1) l

instance : DecidablePred SortedDisjoint := by
  unfold SortedDisjoint
  infer_instance

theorem covers_lower {l : List Range} {lo : Int} (h : ∀ r ∈ l, lo ≤ r.1)
    {x : Int} (hc : covers l x) : lo ≤ x := by
  rcases hc with ⟨r, hr, hx, _⟩
  exact le_trans (h r hr) hx

/-- Main correctness invariant of the two pointer sweep: given sufficient
fuel, a current range `A` with the remaining sorted disjoint non empty ranges
`as'`, and a sorted disjoint list `bs` of non empty ranges (where a degenerate
`A` never strictly straddles a remaining `B`), the sweep succeeds and returns
a sorted disjoint list covering exactly the integers of `A :: as'` not
covered by `bs`. -/
theorem subtractAux_spec :
    ∀ (fuel : Nat) (A : Range) (as' bs : List Range),
      rangepy.sweepFuel A as' bs ≤ fuel →
      A.1 ≤ A.2 →
      SortedDisjoint (A :: as') →
      (∀ r ∈ as', r.1 < r.2) →
      SortedDisjoint bs →
      (∀ r ∈ bs, r.1 < r.2) →
      (A.1 = A.2 → ∀ B ∈ bs, A.2 ≤ B.1 ∨ B.2 ≤ A.1) →
      ∃ l, rangepy.subtractAux fuel A as' bs = some l
        ∧ SortedDisjoint l
        ∧ (∀ r ∈ l, A.1 ≤ r.1)
        ∧ (∀ x : Int, covers l x ↔ (covers (A :: as') x ∧ ¬ covers bs x)) := by
  intro fuel
  induction fuel with
  | zero =>
    intro A as' bs hfuel _ _ _ _ _ _
    exfalso
    unfold rangepy.sweepFuel at hfuel
    omega
  | succ fuel ih =>
    intro A as' bs hfuel hA hchain hasne hbs hbsne hAe
    rw [SortedDisjoint, List.pairwise_cons] at hchain
    obtain ⟨hAas, hchain'⟩ := hchain
    cases bs with
    | nil =>
      refine ⟨A :: as', by simp [rangepy.subtractAux], ?_, ?_, ?_⟩
      · rw [SortedDisjoint, List.pairwise_cons]
        exact ⟨hAas, hchain'⟩
      · intro r hr
        rcases List.mem_cons.mp hr with rfl | hr'
        · exact le_refl _
        · exact le_trans hA (hAas r hr')
      · intro x
        simp
    | cons B bs' =>
      rw [SortedDisjoint, List.pairwise_cons] at hbs
      obtain ⟨hBbs, hbs'⟩ := hbs
      have hB1 : B.1 < B.2 := hbsne B (List.mem_cons_self _ _)
      have hbsne' : ∀ r ∈ bs', r.1 < r.2 :=
        fun r hr => hbsne r (List.mem_cons_of_mem _ hr)
      have hPx : ∀ x : Int, covers as' x → A.2 ≤ x :=
        fun x hc => covers_lower hAas hc
      have hQx : ∀ x : Int, covers bs' x → B.2 ≤ x :=
        fun x hc => covers_lower hBbs hc
      simp only [rangepy.subtractAux]
      by_cases h1 : A.2 ≤ B.1
      · -- A wholly before B: emit A, advance A
        rw [if_pos h1]
        cases as' with
        | nil =>
          refine ⟨[A], rfl, ?_, ?_, ?_⟩
          · exact List.pairwise_singleton _ _
          · intro r hr
            rw [List.mem_singleton] at hr
            subst hr
            exact le_refl _
          · intro x
            simp only [covers_cons, covers_nil, or_false]
            constructor
            · rintro ⟨hx1, hx2⟩
              refine ⟨⟨hx1, hx2⟩, ?_⟩
              rintro (⟨hb1, _⟩ | hQ)
              · omega
              · have := hQx x hQ; omega
            · rintro ⟨hx, _⟩
              exact hx
        | cons A' as'' =>
          have hA' : A'.1 ≤ A'.2 :=
            le_of_lt (hasne A' (List.mem_cons_self _ _))
          have hAA' : A.2 ≤ A'.1 := hAas A' (List.mem_cons_self _ _)
          obtain ⟨l', e', pw', st', cov'⟩ :=
            ih A' as'' (B :: bs')
              (by
                unfold rangepy.sweepFuel at hfuel ⊢
                simp only [List.map_cons, List.sum_cons] at hfuel
                omega)
              hA'
              (by rw [SortedDisjoint]; exact hchain')
              (fun r hr => hasne r (List.mem_cons_of_mem _ hr))
              (by rw [SortedDisjoint, List.pairwise_cons]; exact ⟨hBbs, hbs'⟩)
              hbsne
              (by intro h; exact absurd h (ne_of_lt (hasne A' (List.mem_cons_self _ _))))
          rw [List.pairwise_cons] at hchain'
          obtain ⟨hA'as, hchain''⟩ := hchain'
          refine ⟨A :: l', by simp [e'], ?_, ?_, ?_⟩
          · rw [SortedDisjoint, List.pairwise_cons]
            refine ⟨fun r hr => le_trans hAA' (st' r hr), pw'⟩
          · intro r hr
            rcases List.mem_cons.mp hr with rfl | hr'
            · exact le_refl _
            · exact le_trans hA (le_trans hAA' (st' r hr'))
          · intro x
            simp only [covers_cons]
            rw [cov' x]
            simp only [covers_cons]
            have hnb : A.1 ≤ x → x < A.2 → ¬ ((B.1 ≤ x ∧ x < B.2) ∨ covers bs' x) := by
              rintro hx1 hx2 (⟨hb1, _⟩ | hQ)
              · omega
              · have := hQx x hQ; omega
            constructor
            · rintro (⟨hx1, hx2⟩ | ⟨hrest, hnB⟩)
              · exact ⟨Or.inl ⟨hx1, hx2⟩, hnb hx1 hx2⟩
              · exact ⟨Or.inr hrest, hnB⟩
            · rintro ⟨⟨hx1, hx2⟩ | hrest, hnB⟩
              · exact Or.inl ⟨hx1, hx2⟩
              · exact Or.inr ⟨hrest, hnB⟩
      · rw [if_neg h1]
        by_cases h2 : A.1 ≥ B.2
        · -- A wholly after B: advance B
          rw [if_pos h2]
          obtain ⟨l', e', pw', st', cov'⟩ :=
            ih A as' bs'
              (by
                unfold rangepy.sweepFuel at hfuel ⊢
                simp only [List.length_cons] at hfuel
                omega)
              hA
              (by rw [SortedDisjoint, List.pairwise_cons]; exact ⟨hAas, hchain'⟩)
              hasne
              (by rw [SortedDisjoint]; exact hbs')
              hbsne'
              (fun h C hC => hAe h C (List.mem_cons_of_mem _ hC))
          refine ⟨l', e', pw', st', ?_⟩
          intro x
          rw [cov' x]
          simp only [covers_cons]
          have hge : ((A.1 ≤ x ∧ x < A.2) ∨ covers as' x) → A.1 ≤ x := by
            rintro (⟨hx1, _⟩ | hP)
            · exact hx1
            · exact le_trans hA (hPx x hP)
          constructor
          · rintro ⟨hin, hnQ⟩
            refine ⟨hin, ?_⟩
            rintro (⟨_, hb2⟩ | hQ)
            · have := hge hin; omega
            · exact hnQ hQ
          · rintro ⟨hin, hnB⟩
            exact ⟨hin, fun hQ => hnB (Or.inr hQ)⟩
        · -- A and B overlap
          rw [if_neg h2]
          have hA12 : A.1 < A.2 := by
            rcases lt_or_eq_of_le hA with h | h
            · exact h
            · rcases hAe h B (List.mem_cons_self _ _) with hc | hc <;> omega
          have hI : rangepy.intersect A B
              = [(max A.1 B.1, min A.2 B.2)] := by
            unfold rangepy.intersect
            rw [if_neg (by omega)]
          simp only [hI]
          by_cases hBo : B = ((max A.1 B.1 : Int), (min A.2 B.2 : Int))
          · -- B is in the middle of A
            rw [if_pos hBo]
            rw [Prod.ext_iff] at hBo
            obtain ⟨hBo1, hBo2⟩ := hBo
            simp only at hBo1 hBo2
            obtain ⟨l', e', pw', st', cov'⟩ :=
              ih ((min A.2 B.2 : Int), A.2) as' (B :: bs')
                (by
                  unfold rangepy.sweepFuel at hfuel ⊢
                  simp only at *
                  omega)
                (by simp only; omega)
                (by
                  rw [SortedDisjoint, List.pairwise_cons]
                  exact ⟨fun r hr => hAas r hr, hchain'⟩)
                hasne
                (by rw [SortedDisjoint, List.pairwise_cons]; exact ⟨hBbs, hbs'⟩)
                hbsne
                (by
                  intro h C hC
                  simp only at h
                  rcases List.mem_cons.mp hC with rfl | hC'
                  · right; simp only; omega
                  · left; have := hBbs C hC'; simp only; omega)
            refine ⟨(A.1, max A.1 B.1) :: l', by simp [e'], ?_, ?_, ?_⟩
            · rw [SortedDisjoint, List.pairwise_cons]
              refine ⟨fun r hr => ?_, pw'⟩
              have := st' r hr
              simp only at this
              omega
            · intro r hr
              rcases List.mem_cons.mp hr with rfl | hr'
              · exact le_refl _
              · have := st' r hr'
                simp only at this
                omega
            · intro x
              simp only [covers_cons]
              rw [cov' x]
              simp only [covers_cons]
              have hP := hPx x
              have hQ := hQx x
              constructor
              · rintro (⟨hx1, hx2⟩ | ⟨hmid, hnB⟩)
                · refine ⟨Or.inl ⟨hx1, by omega⟩, ?_⟩
                  rintro (⟨hb1, _⟩ | hq)
                  · omega
                  · have := hQ hq; omega
                · rcases hmid with ⟨hm1, hm2⟩ | hp
                  · exact ⟨Or.inl ⟨by omega, hm2⟩, hnB⟩
                  · exact ⟨Or.inr hp, hnB⟩
              · rintro ⟨hin, hnB⟩
                have hnB1 : ¬ (B.1 ≤ x ∧ x < B.2) := fun h => hnB (Or.inl h)
                rcases hin with ⟨hx1, hx2⟩ | hp
                · by_cases hxb : x < max A.1 B.1
                  · exact Or.inl ⟨hx1, hxb⟩
                  · refine Or.inr ⟨Or.inl ⟨by omega, hx2⟩, hnB⟩
                · exact Or.inr ⟨Or.inr hp, hnB⟩
          · rw [if_neg hBo]
            by_cases hAo : A = ((max A.1 B.1 : Int), (min A.2 B.2 : Int))
            · -- B fully overlaps A: drop A
              rw [if_pos hAo]
              rw [Prod.ext_iff] at hAo
              obtain ⟨hAo1, hAo2⟩ := hAo
              simp only at hAo1 hAo2
              cases as' with
              | nil =>
                refine ⟨[], rfl, List.Pairwise.nil, by simp, ?_⟩
                intro x
                simp only [covers_cons, covers_nil, or_false, false_iff]
                rintro ⟨⟨hx1, hx2⟩, hnB⟩
                exact hnB (Or.inl ⟨by omega, by omega⟩)
              | cons A' as'' =>
                have hA' : A'.1 ≤ A'.2 :=
                  le_of_lt (hasne A' (List.mem_cons_self _ _))
                have hAA' : A.2 ≤ A'.1 := hAas A' (List.mem_cons_self _ _)
                obtain ⟨l', e', pw', st', cov'⟩ :=
                  ih A' as'' (B :: bs')
                    (by
                      unfold rangepy.sweepFuel at hfuel ⊢
                      simp only [List.map_cons, List.sum_cons] at hfuel
                      omega)
                    hA'
                    (by rw [SortedDisjoint]; exact hchain')
                    (fun r hr => hasne r (List.mem_cons_of_mem _ hr))
                    (by rw [SortedDisjoint, List.pairwise_cons]; exact ⟨hBbs, hbs'⟩)
                    hbsne
                    (by intro h; exact absurd h (ne_of_lt (hasne A' (List.mem_cons_self _ _))))
                refine ⟨l', e', pw', ?_, ?_⟩
                · intro r hr
                  exact le_trans hA (le_trans hAA' (st' r hr))
                · intro x
                  rw [cov' x]
                  simp only [covers_cons]
                  constructor
                  · rintro ⟨hin, hnB⟩
                    exact ⟨Or.inr hin, hnB⟩
                  · rintro ⟨⟨hx1, hx2⟩ | hin, hnB⟩
                    · exact absurd (Or.inl ⟨by omega, by omega⟩) hnB
                    · exact ⟨hin, hnB⟩
            · rw [if_neg hAo]
              rw [Prod.ext_iff] at hBo hAo
              simp only [not_and] at hBo hAo
              by_cases ho2B : ((max A.1 B.1 : Int), (min A.2 B.2 : Int)).2 = B.2
              · -- B overlaps the start of A
                rw [if_pos ho2B]
                simp only at ho2B
                have hB1A1 : B.1 < A.1 := by
                  by_cases hbb : B.1 = max A.1 B.1
                  · exact absurd ho2B.symm (hBo hbb)
                  · omega
                have hB2A2 : B.2 < A.2 := by
                  have hmaxA : A.1 = max A.1 B.1 := by omega
                  by_cases haa : A.2 = min A.2 B.2
                  · exact absurd haa (hAo hmaxA)
                  · omega
                obtain ⟨l', e', pw', st', cov'⟩ :=
                  ih ((min A.2 B.2 : Int), A.2) as' bs'
                    (by
                      unfold rangepy.sweepFuel at hfuel ⊢
                      simp only [List.length_cons] at hfuel
                      simp only
                      omega)
                    (by simp only; omega)
                    (by
                      rw [SortedDisjoint, List.pairwise_cons]
                      exact ⟨fun r hr => hAas r hr, hchain'⟩)
                    hasne
                    (by rw [SortedDisjoint]; exact hbs')
                    hbsne'
                    (by intro h; simp only at h; omega)
                refine ⟨l', e', pw', ?_, ?_⟩
                · intro r hr
                  have := st' r hr
                  simp only at this
                  omega
                · intro x
                  rw [cov' x]
                  simp only [covers_cons]
                  have hP := hPx x
                  have hQ := hQx x
                  constructor
                  · rintro ⟨hin, hnQ⟩
                    rcases hin with ⟨hm1, hm2⟩ | hp
                    · refine ⟨Or.inl ⟨by omega, hm2⟩, ?_⟩
                      rintro (⟨_, hb2⟩ | hq)
                      · omega
                      · exact hnQ hq
                    · refine ⟨Or.inr hp, ?_⟩
                      rintro (⟨_, hb2⟩ | hq)
                      · have := hP hp; omega
                      · exact hnQ hq
                  · rintro ⟨hin, hnB⟩
                    have hnB1 : ¬ (B.1 ≤ x ∧ x < B.2) := fun h => hnB (Or.inl h)
                    have hnQ : ¬ covers bs' x := fun h => hnB (Or.inr h)
                    rcases hin with ⟨hx1, hx2⟩ | hp
                    · exact ⟨Or.inl ⟨by omega, hx2⟩, hnQ⟩
                    · exact ⟨Or.inr hp, hnQ⟩
              · by_cases hA2o : A.2 = ((max A.1 B.1 : Int), (min A.2 B.2 : Int)).2
                · -- B overlaps the end of A: emit left part, advance A
                  rw [if_neg ho2B, if_pos hA2o]
                  simp only at ho2B hA2o
                  have hA2B2 : A.2 < B.2 := by omega
                  have hA1B1 : A.1 < B.1 := by
                    by_cases haa : A.1 = max A.1 B.1
                    · exact absurd hA2o (hAo haa)
                    · omega
                  cases as' with
                  | nil =>
                    refine ⟨[(A.1, max A.1 B.1)], rfl, List.pairwise_singleton _ _, ?_, ?_⟩
                    · intro r hr
                      rw [List.mem_singleton] at hr
                      subst hr
                      exact le_refl _
                    · intro x
                      simp only [covers_cons, covers_nil, or_false]
                      have hQ := hQx x
                      constructor
                      · rintro ⟨hx1, hx2⟩
                        refine ⟨⟨hx1, by omega⟩, ?_⟩
                        rintro (⟨hb1, _⟩ | hq)
                        · omega
                        · have := hQ hq; omega
                      · rintro ⟨⟨hx1, hx2⟩, hnB⟩
                        have hnB1 : ¬ (B.1 ≤ x ∧ x < B.2) := fun h => hnB (Or.inl h)
                        exact ⟨hx1, by omega⟩
                  | cons A' as'' =>
                    have hA' : A'.1 ≤ A'.2 :=
                      le_of_lt (hasne A' (List.mem_cons_self _ _))
                    have hAA' : A.2 ≤ A'.1 := hAas A' (List.mem_cons_self _ _)
                    obtain ⟨l', e', pw', st', cov'⟩ :=
                      ih A' as'' (B :: bs')
                        (by
                          unfold rangepy.sweepFuel at hfuel ⊢
                          simp only [List.map_cons, List.sum_cons] at hfuel
                          omega)
                        hA'
                        (by rw [SortedDisjoint]; exact hchain')
                        (fun r hr => hasne r (List.mem_cons_of_mem _ hr))
                        (by rw [SortedDisjoint, List.pairwise_cons]; exact ⟨hBbs, hbs'⟩)
                        hbsne
                        (by intro h; exact absurd h (ne_of_lt (hasne A' (List.mem_cons_self _ _))))
                    refine ⟨(A.1, max A.1 B.1) :: l', by simp [e'], ?_, ?_, ?_⟩
                    · rw [SortedDisjoint, List.pairwise_cons]
                      refine ⟨fun r hr => ?_, pw'⟩
                      have := st' r hr
                      simp only
                      omega
                    · intro r hr
                      rcases List.mem_cons.mp hr with rfl | hr'
                      · exact le_refl _
                      · have := st' r hr'
                        omega
                    · intro x
                      simp only [covers_cons]
                      rw [cov' x]
                      simp only [covers_cons]
                      have hQ := hQx x
                      have hrest : ((A'.1 ≤ x ∧ x < A'.2) ∨ covers as'' x) → A.2 ≤ x := by
                        rintro (⟨hr1, _⟩ | hp)
                        · omega
                        · rw [List.pairwise_cons] at hchain'
                          exact le_trans hAA' (le_trans (le_of_lt (hasne A' (List.mem_cons_self _ _)))
                            (covers_lower hchain'.1 hp))
                      constructor
                      · rintro (⟨hx1, hx2⟩ | ⟨hin, hnB⟩)
                        · refine ⟨Or.inl ⟨hx1, by omega⟩, ?_⟩
                          rintro (⟨hb1, _⟩ | hq)
                          · omega
                          · have := hQ hq; omega
                        · exact ⟨Or.inr hin, hnB⟩
                      · rintro ⟨⟨hx1, hx2⟩ | hin, hnB⟩
                        · have hnB1 : ¬ (B.1 ≤ x ∧ x < B.2) := fun h => hnB (Or.inl h)
                          exact Or.inl ⟨hx1, by omega⟩
                        · exact Or.inr ⟨hin, hnB⟩
                · -- unreachable: the minimum equals one of the two ends
                  exfalso
                  simp only at ho2B hA2o
                  omega

theorem covers_filter_nonempty (l : List Range) (x : Int) :
    covers (l.filter (fun r => decide (r.1 < r.2))) x ↔ covers l x := by
  constructor
  · rintro ⟨r, hr, hx⟩
    exact ⟨r, (List.mem_filter.mp hr).1, hx⟩
  · rintro ⟨r, hr, hx1, hx2⟩
    exact ⟨r, List.mem_filter.mpr ⟨hr, by simp; omega⟩, hx1, hx2⟩

/-- C5 (amended): for sorted, pairwise disjoint lists of NON-EMPTY half open
ranges, `subtract` returns a sorted, pairwise disjoint list of non empty
ranges covering exactly the integers covered by `a` and not by `b`. -/
theorem subtract_correct_on_nonempty_ranges (a b : List Range)
    (ha : SortedDisjoint a) (hb : SortedDisjoint b)
    (hane : ∀ r ∈ a, r.1 < r.2) (hbne : ∀ r ∈ b, r.1 < r.2) :
    ∃ l, rangepy.subtract a b = some l
      ∧ SortedDisjoint l
      ∧ (∀ r ∈ l, r.1 < r.2)
      ∧ (∀ x : Int, covers l x ↔ (covers a x ∧ ¬ covers b x)) := by
  cases a with
  | nil => exact ⟨[], rfl, List.Pairwise.nil, by simp, by simp⟩
  | cons A as' =>
    have hA12 := hane A (List.mem_cons_self _ _)
    obtain ⟨l', e', pw', st', cov'⟩ :=
      subtractAux_spec (rangepy.sweepFuel A as' b) A as' b (le_refl _)
        (le_of_lt hA12) ha (fun r hr => hane r (List.mem_cons_of_mem _ hr))
        hb hbne (fun h => absurd h (ne_of_lt hA12))
    refine ⟨l'.filter (fun r => decide (r.1 < r.2)), ?_, ?_, ?_, ?_⟩
    · simp only [rangepy.subtract]
      rw [e']
      rfl
    · exact List.Pairwise.filter _ pw'
    · intro r hr
      have := (List.mem_filter.mp hr).2
      simp at this
      exact this
    · intro x
      rw [covers_filter_nonempty, cov' x]

/-- C5 counterexample: on an input containing a zero length range the code
raises an IndexError (here: returns `none`) instead of returning the set
difference, although both inputs are sorted and pairwise disjoint. -/
theorem subtract_crashes_on_zero_length_range :
    SortedDisjoint [((0 : Int), (10 : Int))]
    ∧ SortedDisjoint [((3 : Int), (3 : Int))]
    ∧ rangepy.subtract [((0 : Int), (10 : Int))] [((3 : Int), (3 : Int))] = none := by
  refine ⟨by decide, by decide, by decide⟩

/-- C5 witness: the amended theorem applied at a concrete input. -/
theorem subtract_correct_on_nonempty_ranges_witness :
    (SortedDisjoint [((0 : Int), 10), (20, 30)]
      ∧ SortedDisjoint [((5 : Int), 25)]
      ∧ (∀ r ∈ [((0 : Int), 10), (20, 30)], r.1 < r.2)
      ∧ (∀ r ∈ [((5 : Int), 25)], r.1 < r.2))
    ∧ (∃ l, rangepy.subtract [((0 : Int), 10), (20, 30)] [((5 : Int), 25)] = some l
        ∧ SortedDisjoint l
        ∧ (∀ r ∈ l, r.1 < r.2)
        ∧ (∀ x : Int, covers l x ↔
            (covers [((0 : Int), 10), (20, 30)] x ∧ ¬ covers [((5 : Int), 25)] x))) :=
  ⟨⟨by decide, by decide, by decide, by decide⟩,
    subtract_correct_on_nonempty_ranges _ _ (by decide) (by decide) (by decide)
      (by decide)⟩

namespace bedpy

/-- The integers of a Python `range(a, b)`, in ascending order. -/
def pyRange (a : Range) : List Int :=
  (List.range (a.2 - a.1).toNat).map (fun k => a.1 + k)

/-- Insertion into a sorted list of integers, used to model Python `sorted`. -/
def insertInt (x : Int) : List Int → List Int
  | [] => [x]
  | y :: ys => if x ≤ y then x :: y :: ys else y :: insertInt x ys

/-- Model of Python `sorted` on a list of integers. -/
def sortInts (l : List Int) : List Int := l.foldr insertInt []

/-- The accumulation loop of `_to_range` from src/GTGT/bed.py. -/
def toRangeLoop : Int → Int → List Range → List Int → List Range
  | start, prev, acc, [] => acc ++ [(start, prev + 1)]
  | start, prev, acc, i :: rest =>
    if i = prev + 1 then toRangeLoop start i acc rest
    else toRangeLoop i i (acc ++ [(start, prev + 1)]) rest

/-- Embedding of `_to_range` from src/GTGT/bed.py: convert a set of numbers
to the list of maximal consecutive runs, each as `[start, end)`. -/
def _to_range (numbers : List Int) : List Range :=
  match sortInts numbers with
  | [] => []
  | [i] => [(i, i + 1)]
  | i :: rest => toRangeLoop i i [] rest

/-- Embedding of module level `intersect` from src/GTGT/bed.py: the lazy, set
based implementation enumerating all the numbers of both ranges. -/
def intersect (a b : Range) : List Range :=
  _to_range ((pyRange a).filter (fun x => decide (x ∈ pyRange b)))

end bedpy

-- sanity checks against the repository's test suite for _to_range
example : bedpy._to_range [] = [] := by decide
example : bedpy._to_range [0] = [(0, 1)] := by decide
example : bedpy._to_range [0, 1] = [(0, 2)] := by decide
example : bedpy._to_range [0, 1, 2, 4, 5] = [(0, 3), (4, 6)] := by decide
example : bedpy._to_range [3, 2, 1, 0] = [(0, 4)] := by decide
example : bedpy.intersect (0, 10) (10, 20) = [] := by decide
example : bedpy.intersect (2, 5) (3, 6) = [(3, 5)] := by decide

deriving instance DecidableEq for Except

/-- The Bed record of src/GTGT/bed.py, after construction: every castable
field already cast to its typed form. -/
structure Bed where
  chrom : String
  chromStart : Int
  chromEnd : Int
  name : String
  score : Int
  strand : String
  thickStart : Int
  thickEnd : Int
  itemRgb : List Int
  blockCount : Int
  blockSizes : List Int
  blockStarts : List Int
deriving DecidableEq, Repr

/-- Embedding of `Bed.__init__` from src/GTGT/bed.py with already typed
arguments: `none` selects the documented default for thickStart, thickEnd,
blockSizes and blockStarts.  The source performs NO validation of any kind,
so construction is total. -/
def bedInit (chrom : String) (chromStart chromEnd : Int) (name : String)
    (score : Int) (strand : String) (thickStart thickEnd : Option Int)
    (itemRgb : List Int) (blockCount : Int)
    (blockSizes blockStarts : Option (List Int)) : Bed :=
  Bed.mk chrom chromStart chromEnd name score strand
    (thickStart.getD chromStart) (thickEnd.getD chromEnd) itemRgb blockCount
    (blockSizes.getD [chromEnd - chromStart]) (blockStarts.getD [0])

/-- `Bed(chrom, start, end)` with every optional argument defaulted. -/
def bedDefault (chrom : String) (chromStart chromEnd : Int) : Bed :=
  bedInit chrom chromStart chromEnd "." 0 "." none none [0, 0, 0] 1 none none

/-- Embedding of `Bed.blocks`: absolute `(start, end)` pairs recomputed from
the stored relative block sizes and starts. -/
def Bed.blocks (b : Bed) : List Range :=
  List.zipWith (fun sz st => (b.chromStart + st, b.chromStart + st + sz))
    b.blockSizes b.blockStarts

/-- Embedding of `Bed._zero_out`: all ranges collapse onto chromStart and a
single zero length block remains. -/
def Bed._zero_out (b : Bed) : Bed :=
  Bed.mk b.chrom b.chromStart b.chromStart b.name b.score b.strand
    b.chromStart b.chromStart b.itemRgb 1 [0] [0]

/-- Embedding of `Bed.intersect` from src/GTGT/bed.py.  The source computes
the list of pairwise block intersections but never stores it: outside the
zeroing branches the record is returned unchanged (the trailing `print` is a
no op here). -/
def Bed.intersect (self other : Bed) : Except String Bed :=
  if self.strand ≠ other.strand then
    Except.error "Conflicting strands, intersection not possible"
  else if self.chrom ≠ other.chrom then
    Except.ok self._zero_out
  else
    let intersected := self.blocks.flatMap
      (fun r1 => other.blocks.flatMap (fun r2 => bedpy.intersect r1 r2))
    if intersected.isEmpty then Except.ok self._zero_out
    else Except.ok self

-- sanity checks against the repository's Bed tests
example : (bedDefault "chr1" 5 10).blockStarts = [0] := by decide
example : (bedDefault "chr1" 5 10).blockSizes = [5] := by decide
example :
    Bed.intersect (bedDefault "chr1" 0 10) (bedDefault "chr2" 0 10)
      = Except.ok (bedDefault "chr1" 0 0) := by decide
example :
    Bed.intersect (bedDefault "chr1" 5 10) (bedDefault "chr1" 20 30)
      = Except.ok ((bedDefault "chr1" 5 10)._zero_out) := by decide
example :
    Bed.intersect (bedDefault "chr1" 0 10) (bedDefault "chr1" 0 10)
      = Except.ok (bedDefault "chr1" 0 10) := by decide
example :
    Bed.intersect (bedDefault "chr1" 0 10) (bedInit "chr1" 0 10 "." 0 "+" none
      none [0, 0, 0] 1 none none)
      = Except.error "Conflicting strands, intersection not possible" := by
  decide

/-- C4: contrary to the claim, `Bed.__init__` performs no validation at all:
a record with thickStart greater than thickEnd is constructed without error
(construction is a total function), directly contradicting the repository's
own tests which expect a ValueError for this input. -/
theorem bed_init_accepts_invalid_thick :
    (bedInit "chr1" 10 20 "." 0 "+" (some 15) (some 10) [0, 0, 0] 1 none
        none).thickStart = 15
    ∧ (bedInit "chr1" 10 20 "." 0 "+" (some 15) (some 10) [0, 0, 0] 1 none
        none).thickEnd = 10
    ∧ ¬ (bedInit "chr1" 10 20 "." 0 "+" (some 15) (some 10) [0, 0, 0] 1 none
        none).thickStart
        ≤ (bedInit "chr1" 10 20 "." 0 "+" (some 15) (some 10) [0, 0, 0] 1
            none none).thickEnd := by
  refine ⟨rfl, rfl, by decide⟩

/-- C1: `Bed.intersect` never stores the computed block intersections: for
two records on the same chromosome and strand with partially overlapping
blocks, the pairwise intersection is non empty (here `[(5, 10)]`), so the
claim requires the blocks to become `[(5, 10)]`, yet the record is returned
entirely unchanged. -/
theorem bed_intersect_drops_computed_blocks :
    Bed.intersect (bedDefault "chr1" 0 10) (bedDefault "chr1" 5 15)
      = Except.ok (bedDefault "chr1" 0 10)
    ∧ (bedDefault "chr1" 0 10).blocks = [((0 : Int), 10)]
    ∧ bedpy.intersect ((0 : Int), 10) ((5 : Int), 15) = [((5 : Int), 10)] := by
  refine ⟨by decide, by decide, by decide⟩

/-- The Transcript of src/GTGT/transcript.py: its three owned Bed records. -/
structure Transcript where
  exons : Bed
  cds : Bed
  coding : Bed
deriving DecidableEq, Repr

/-- Embedding of `Transcript.__init__` from src/GTGT/transcript.py: the
coding record is a deep copy of the exons renamed to "coding", then
intersected in place with the cds. -/
def transcriptNew (exons cds : Bed) : Except String Transcript := do
  let coding0 := Bed.mk exons.chrom exons.chromStart exons.chromEnd "coding"
    exons.score exons.strand exons.thickStart exons.thickEnd exons.itemRgb
    exons.blockCount exons.blockSizes exons.blockStarts
  let coding ← coding0.intersect cds
  Except.ok (Transcript.mk exons cds coding)

/-- C2: because `Bed.intersect` never updates the blocks, the coding record
derived by `Transcript.__init__` keeps the exon blocks verbatim instead of
the exon/CDS intersections `[(23, 40), (50, 60), (70, 72)]` claimed by the
specification (and expected by the repository's own test_coding). -/
theorem transcript_coding_region_not_intersected :
    (transcriptNew
        (bedInit "chr1" 0 100 "exons" 0 "." none none [0, 0, 0] 4
          (some [10, 20, 10, 30]) (some [0, 20, 50, 70]))
        (bedDefault "chr1" 23 72)).map (fun t => t.coding.blocks)
      = Except.ok [((0 : Int), 10), (20, 40), (50, 60), (70, 100)]
    ∧ [((0 : Int), 10), (20, 40), (50, 60), (70, 100)]
        ≠ [((23 : Int), 40), (50, 60), (70, 72)] := by
  refine ⟨by decide, by decide⟩

/-- Modelled from the spec: `Bed.update` is called by the overlap and
subtract operations and exercised by the repository's tests, but it is
missing from src/GTGT/bed.py.  Per spec section 4.2 it replaces the block
list wholly, zeroes the record on empty input, and fails (NotImplementedError)
when thickStart or thickEnd differ from their defaults; chromStart and
chromEnd shrink to the new block extremes, with the relative block encoding
recomputed against the new chromStart. -/
def Bed.update (self : Bed) (ranges : List Range) : Except String Bed :=
  if self.thickStart ≠ self.chromStart ∨ self.thickEnd ≠ self.chromEnd then
    Except.error "update is not implemented for records with thick ranges"
  else
    match ranges with
    | [] => Except.ok self._zero_out
    | r :: rest =>
      let newStart := r.1
      let newEnd := (rest.getLastD r).2
      Except.ok (Bed.mk self.chrom newStart newEnd self.name self.score
        self.strand newStart newEnd self.itemRgb (Int.ofNat ranges.length)
        (ranges.map (fun x => x.2 - x.1))
        (ranges.map (fun x => x.1 - newStart)))

/-- Modelled from the spec: `Bed.overlap` is called by `Transcript.exon_skip`
but missing from src/GTGT/bed.py.  Per spec section 4.2 it keeps exactly the
self blocks that overlap any block of `other` (blocks are kept or dropped
whole, never trimmed), requires matching strands under the same rule as
`intersect`, and zeroes the record when the chromosomes differ or when no
block remains (behaviour pinned by the repository's tests). -/
def Bed.overlap (self other : Bed) : Except String Bed :=
  if self.strand ≠ other.strand then
    Except.error "Conflicting strands, overlap not possible"
  else if self.chrom ≠ other.chrom then
    Except.ok self._zero_out
  else
    self.update (self.blocks.filter
      (fun r1 => other.blocks.any (fun r2 => rangepy.overlap r1 r2)))

/-- Modelled from the spec: `Bed.subtract` is called by `Transcript.subtract`
but missing from src/GTGT/bed.py.  Per spec section 4.2 the block list
becomes `Range.subtract(self.blocks, other.blocks)` with chromStart and
chromEnd shrinking to the new extremes (zeroing when empty); per the
repository's tests a selector on a different chromosome leaves the record
unchanged. -/
def Bed.subtract (self other : Bed) : Except String Bed :=
  if self.chrom ≠ other.chrom then
    Except.ok self
  else
    match rangepy.subtract self.blocks other.blocks with
    | none => Except.error "IndexError"
    | some rs => self.update rs

/-- Embedding of `Transcript.subtract` from src/GTGT/transcript.py: apply the
Bed subtraction to every owned record. -/
def Transcript.subtract (t : Transcript) (selector : Bed) :
    Except String Transcript := do
  let e ← t.exons.subtract selector
  let c ← t.cds.subtract selector
  let k ← t.coding.subtract selector
  Except.ok (Transcript.mk e c k)

/-- Embedding of `Transcript.exon_skip` from src/GTGT/transcript.py: compute
on a deep copy of the exons the sub record of blocks overlapping the
selector, then subtract that record from every owned record. -/
def Transcript.exon_skip (t : Transcript) (selector : Bed) :
    Except String Transcript := do
  let toSkip ← t.exons.overlap selector
  t.subtract toSkip

-- sanity checks of the modelled operations against the repository's tests
example :
    (bedDefault "chr1" 0 11).update [(1, 4), (5, 6), (7, 9)]
      = Except.ok (Bed.mk "chr1" 1 9 "." 0 "." 1 9 [0, 0, 0] 3 [3, 1, 2]
          [0, 4, 6]) := by decide
example :
    (bedInit "chr1" 0 10 "." 0 "." (some 2) (some 9) [0, 0, 0] 1 none
        none).update [(4, 8)]
      = Except.error "update is not implemented for records with thick ranges" := by
  decide
example :
    (bedDefault "chr1" 0 10).overlap (bedDefault "chr1" 10 20)
      = Except.ok (bedDefault "chr1" 0 0) := by decide
example :
    (bedDefault "chr1" 10 20).overlap (bedDefault "chr1" 0 11)
      = Except.ok (bedDefault "chr1" 10 20) := by decide

/-- The exon record of the specification's end to end example. -/
def c3Exons : Bed :=
  bedInit "chr1" 0 100 "exons" 0 "." none none [0, 0, 0] 4
    (some [10, 20, 10, 30]) (some [0, 20, 50, 70])

/-- The CDS record of the specification's end to end example. -/
def c3Cds : Bed := bedDefault "chr1" 23 72

/-- The selector of the specification's exon skip example, covering (9, 21). -/
def c3Selector : Bed := bedDefault "chr1" 9 21

/-- C3 counterexample: the selector (9, 21) also overlaps the first exon
(0, 10) at position 9, so `exon_skip` removes BOTH (0, 10) and (20, 40); the
exon blocks afterwards are [(50, 60), (70, 100)], not the claimed
[(0, 10), (50, 60), (70, 100)].  This matches the repository's own test
("Selector spans two exons"). -/
theorem exon_skip_selector_9_21_counterexample :
    ((transcriptNew c3Exons c3Cds).bind
        (fun t => t.exon_skip c3Selector)).map (fun t => t.exons.blocks)
      = Except.ok [((50 : Int), 60), (70, 100)]
    ∧ [((50 : Int), 60), (70, 100)] ≠ [((0 : Int), 10), (50, 60), (70, 100)] := by
  refine ⟨by decide, by decide⟩

/-- C3 (amended): `exon_skip` removes exactly the whole exons that overlap
the selector, block granularly via the Bed overlap operation, from every
owned record.  With selector (9, 21) the overlapping exons are (0, 10) and
(20, 40); afterwards the exon blocks are [(50, 60), (70, 100)], the cds
blocks [(40, 72)] and the coding record's blocks [(50, 60), (70, 100)]. -/
theorem exon_skip_removes_all_overlapping_exons :
    c3Exons.blocks.filter
        (fun r1 => c3Selector.blocks.any (fun r2 => rangepy.overlap r1 r2))
      = [((0 : Int), 10), (20, 40)]
    ∧ (c3Exons.overlap c3Selector).map Bed.blocks
      = Except.ok [((0 : Int), 10), (20, 40)]
    ∧ ((transcriptNew c3Exons c3Cds).bind
        (fun t => t.exon_skip c3Selector)).map
          (fun t => (t.exons.blocks, t.cds.blocks, t.coding.blocks))
      = Except.ok ([((50 : Int), 60), (70, 100)], [((40 : Int), 72)],
          [((50 : Int), 60), (70, 100)]) := by
  refine ⟨by decide, by decide, by decide⟩

/-- The `_Variant` of src/gtgt/mutalyzer.py: a delins edit on the internal
coordinate axis.  The Python attribute `end` is called `stop` here because
`end` is a Lean keyword; the constructor invariant `start <= end` (enforced
by `_Variant.__init__` with a ValueError) is carried as a hypothesis where
needed. -/
structure Variant where
  start : Int
  stop : Int
  inserted : String
deriving DecidableEq, Repr

namespace Variant

/-- Embedding of `_Variant.before`. -/
def before (self other : Variant) : Bool :=
  decide (self.stop ≤ other.start)

/-- Embedding of `_Variant.after`. -/
def after (self other : Variant) : Bool :=
  decide (self.start ≥ other.stop)

/-- Embedding of `_Variant.inside`. -/
def inside (self other : Variant) : Bool :=
  decide (self.start ≥ other.start) && decide (self.stop ≤ other.stop)

/-- Embedding of `_Variant.overlap`. -/
def overlap (self other : Variant) : Bool :=
  let self_ends_in_other :=
    decide (self.stop > other.start) && decide (self.stop ≤ other.stop)
  let self_starts_in_other :=
    decide (self.start ≥ other.start) && decide (self.start < other.stop)
  self_starts_in_other || self_ends_in_other || self.inside other
    || other.inside self

/-- Embedding of `_Variant.__lt__`: comparing overlapping variants raises a
ValueError; otherwise the order is by start position. -/
def lt (self other : Variant) : Except String Bool :=
  if self.overlap other then
    Except.error "Overlapping variants cannot be sorted"
  else
    Except.ok (decide (self.start < other.start))

end Variant

/-- Whether an Except value carries a result (models: no exception raised). -/
def exceptOk {ε α : Type} : Except ε α → Bool
  | Except.ok _ => true
  | Except.error _ => false

@[simp] theorem before_iff (a b : Variant) :
    Variant.before a b = true ↔ a.stop ≤ b.start := by
  simp [Variant.before]

@[simp] theorem after_iff (a b : Variant) :
    Variant.after a b = true ↔ b.stop ≤ a.start := by
  simp [Variant.after]

@[simp] theorem inside_iff (a b : Variant) :
    Variant.inside a b = true ↔ (b.start ≤ a.start ∧ a.stop ≤ b.stop) := by
  simp [Variant.inside]

theorem overlap_iff (a b : Variant) :
    Variant.overlap a b = true ↔
      ((b.start ≤ a.start ∧ a.start < b.stop)
        ∨ (b.start < a.stop ∧ a.stop ≤ b.stop)
        ∨ (b.start ≤ a.start ∧ a.stop ≤ b.stop)
        ∨ (a.start ≤ b.start ∧ b.stop ≤ a.stop)) := by
  simp [Variant.overlap, Variant.inside]
  tauto

theorem overlap_symm (a b : Variant) :
    Variant.overlap a b = Variant.overlap b a := by
  have h : Variant.overlap a b = true ↔ Variant.overlap b a = true := by
    rw [overlap_iff, overlap_iff]
    omega
  cases hab : Variant.overlap a b <;> cases hba : Variant.overlap b a <;>
    simp_all

/-- Two variants are separated when they do not overlap and the first starts
strictly before the second: exactly the situation in which `__lt__` returns
True, and the shape of a list already sorted with `__lt__`. -/
def Separated (a b : Variant) : Prop :=
  Variant.overlap a b = false ∧ a.start < b.start

instance : ∀ a b : Variant, Decidable (Separated a b) := fun a b => by
  unfold Separated
  infer_instance

theorem sep_end_le {a b : Variant} (h : Separated a b) : a.stop ≤ b.start := by
  obtain ⟨ho, hs⟩ := h
  rw [Bool.eq_false_iff, Ne, overlap_iff] at ho
  omega

theorem sep_stop_lt {a b : Variant} (h : Separated a b) : a.stop < b.stop := by
  obtain ⟨ho, hs⟩ := h
  rw [Bool.eq_false_iff, Ne, overlap_iff] at ho
  omega

theorem not_overlap_start_ne {a b : Variant}
    (h : Variant.overlap a b = false) : a.start ≠ b.start := by
  rw [Bool.eq_false_iff, Ne, overlap_iff] at h
  omega

theorem sep_trans {a b c : Variant} (hab : Separated a b) (hbc : Separated b c)
    (hc : c.start ≤ c.stop) : Separated a c := by
  have h1 := sep_end_le hab
  have h2 := sep_end_le hbc
  obtain ⟨_, hsab⟩ := hab
  obtain ⟨_, hsbc⟩ := hbc
  constructor
  · rw [Bool.eq_false_iff, Ne, overlap_iff]
    omega
  · omega

theorem lt_ok_true_iff (a b : Variant) :
    Variant.lt a b = Except.ok true ↔
      (a.start < b.start ∧ Variant.overlap a b = false) := by
  unfold Variant.lt
  by_cases h : Variant.overlap a b = true
  · rw [if_pos h]
    simp [h]
  · rw [Bool.not_eq_true] at h
    rw [if_neg (by simp [h])]
    simp [h]

theorem lt_ok_false_sep {a b : Variant}
    (h : Variant.lt a b = Except.ok false) : Separated b a := by
  unfold Variant.lt at h
  by_cases ho : Variant.overlap a b = true
  · rw [if_pos ho] at h
    cases h
  · rw [Bool.not_eq_true] at ho
    rw [if_neg (by simp [ho])] at h
    simp only [Except.ok.injEq, decide_eq_false_iff_not, not_lt] at h
    have hne := not_overlap_start_ne ho
    refine ⟨by rw [overlap_symm]; exact ho, by omega⟩

theorem lt_error_of_overlap {a b : Variant}
    (h : Variant.overlap a b = true) : exceptOk (Variant.lt a b) = false := by
  unfold Variant.lt
  rw [if_pos h]
  rfl

/-- One insertion step of the model of Python `sorted` on variants: every
comparison goes through `_Variant.__lt__`, so a comparison failure
propagates as the raised ValueError. -/
def insertVariant (x : Variant) : List Variant → Except String (List Variant)
  | [] => Except.ok [x]
  | y :: ys => do
    let b ← Variant.lt x y
    if b then
      Except.ok (x :: y :: ys)
    else do
      let rest ← insertVariant x ys
      Except.ok (y :: rest)

/-- Model of Python `sorted` on variants: an insertion sort over the
fallible comparison `_Variant.__lt__`. -/
def sortVariants : List Variant → Except String (List Variant)
  | [] => Except.ok []
  | x :: xs => do
    let s ← sortVariants xs
    insertVariant x s

/-- Embedding of the scan loop of `combine_variants_deletion` from
src/gtgt/mutalyzer.py (including the for/else appending the deletion when
the scan completes). -/
def combineLoop (deletion : Variant) : List Variant → Except String (List Variant)
  | [] => Except.ok [deletion]
  | v :: rest =>
    if v.before deletion then do
      let r ← combineLoop deletion rest
      Except.ok (v :: r)
    else if v.inside deletion then
      combineLoop deletion rest
    else if v.after deletion then
      Except.ok (deletion :: v :: rest)
    else
      Except.error "Deletion partially overlaps variant"

/-- Embedding of `combine_variants_deletion` from src/gtgt/mutalyzer.py: the
input is first re-sorted with `sorted` (which fails on overlapping
variants), then scanned once left to right. -/
def combine_variants_deletion (variants : List Variant) (deletion : Variant) :
    Except String (List Variant) := do
  let s ← sortVariants variants
  combineLoop deletion s

-- sanity checks against the repository's test suite
example : sortVariants [Variant.mk 5 7 "", Variant.mk 2 4 ""]
    = Except.ok [Variant.mk 2 4 "", Variant.mk 5 7 ""] := by decide
example :
    combine_variants_deletion [] (Variant.mk 0 10 "")
      = Except.ok [Variant.mk 0 10 ""] := by decide
example :
    combine_variants_deletion [Variant.mk 5 7 "", Variant.mk 2 4 ""]
        (Variant.mk 10 11 "")
      = Except.ok [Variant.mk 2 4 "", Variant.mk 5 7 "", Variant.mk 10 11 ""] := by
  decide
example :
    combine_variants_deletion [Variant.mk 2 4 "", Variant.mk 5 7 ""]
        (Variant.mk 4 5 "")
      = Except.ok [Variant.mk 2 4 "", Variant.mk 4 5 "", Variant.mk 5 7 ""] := by
  decide
example :
    combine_variants_deletion [Variant.mk 2 4 "", Variant.mk 5 7 ""]
        (Variant.mk 1 5 "")
      = Except.ok [Variant.mk 1 5 "", Variant.mk 5 7 ""] := by decide
example :
    combine_variants_deletion [Variant.mk 2 4 "", Variant.mk 5 7 ""]
        (Variant.mk 2 7 "")
      = Except.ok [Variant.mk 2 7 ""] := by decide
example :
    exceptOk (combine_variants_deletion [Variant.mk 0 2 "", Variant.mk 1 3 ""]
        (Variant.mk 10 11 "")) = false := by decide

theorem insertVariant_ok {x : Variant} {ys : List Variant} {r : List Variant}
    (hvx : x.start ≤ x.stop)
    (hval : ∀ v ∈ ys, v.start ≤ v.stop)
    (hsep : List.Pairwise Separated ys)
    (h : insertVariant x ys = Except.ok r) :
    List.Pairwise Separated r ∧ List.Perm r (x :: ys) := by
  induction ys generalizing r with
  | nil =>
    cases h
    exact ⟨List.pairwise_singleton _ _, List.Perm.refl _⟩
  | cons y ys ihy =>
    rw [List.pairwise_cons] at hsep
    obtain ⟨hy, hsep'⟩ := hsep
    unfold insertVariant at h
    cases hlt : Variant.lt x y with
    | error e =>
      rw [hlt] at h
      cases h
    | ok b =>
      rw [hlt] at h
      cases b with
      | true =>
        cases h
        obtain ⟨hxy, hov⟩ := (lt_ok_true_iff x y).mp hlt
        refine ⟨?_, List.Perm.refl _⟩
        rw [List.pairwise_cons]
        refine ⟨?_, by rw [List.pairwise_cons]; exact ⟨hy, hsep'⟩⟩
        intro z hz
        rcases List.mem_cons.mp hz with rfl | hz'
        · exact ⟨hov, hxy⟩
        · exact sep_trans ⟨hov, hxy⟩ (hy z hz') (hval z (List.mem_cons_of_mem _ hz'))
      | false =>
        have hyx : Separated y x := lt_ok_false_sep hlt
        cases hrec : insertVariant x ys with
        | error e =>
          rw [hrec] at h
          cases h
        | ok rest =>
          rw [hrec] at h
          cases h
          obtain ⟨hpw, hperm⟩ :=
            ihy (fun v hv => hval v (List.mem_cons_of_mem _ hv)) hsep' hrec
          constructor
          · rw [List.pairwise_cons]
            refine ⟨?_, hpw⟩
            intro z hz
            have hz' : z ∈ x :: ys := hperm.mem_iff.mp hz
            rcases List.mem_cons.mp hz' with rfl | hz''
            · exact hyx
            · exact hy z hz''
          · exact (List.Perm.cons y hperm).trans (List.Perm.swap x y ys)

theorem sortVariants_ok {l s : List Variant}
    (hval : ∀ v ∈ l, v.start ≤ v.stop)
    (h : sortVariants l = Except.ok s) :
    List.Pairwise Separated s ∧ List.Perm s l := by
  induction l generalizing s with
  | nil =>
    cases h
    exact ⟨List.Pairwise.nil, List.Perm.refl _⟩
  | cons x xs ih =>
    unfold sortVariants at h
    cases hrec : sortVariants xs with
    | error e =>
      rw [hrec] at h
      cases h
    | ok s' =>
      rw [hrec] at h
      obtain ⟨hpw', hperm'⟩ := ih (fun v hv => hval v (List.mem_cons_of_mem _ hv)) hrec
      have hval' : ∀ v ∈ s', v.start ≤ v.stop :=
        fun v hv => hval v (List.mem_cons_of_mem _ (hperm'.mem_iff.mp hv))
      obtain ⟨hpw, hperm⟩ :=
        insertVariant_ok (hval x (List.mem_cons_self _ _)) hval' hpw' h
      exact ⟨hpw, hperm.trans (List.Perm.cons x hperm')⟩

/-- If the input contains two overlapping variants (at distinct positions),
sorting it with the fallible comparison fails: a successful sort would be a
pairwise separated permutation of the input, which cannot contain an
overlapping pair. -/
theorem sortVariants_error_of_overlap_pair
    {l1 l2 l3 : List Variant} {a b : Variant}
    (hval : ∀ v ∈ l1 ++ a :: l2 ++ b :: l3, v.start ≤ v.stop)
    (hov : Variant.overlap a b = true) :
    exceptOk (sortVariants (l1 ++ a :: l2 ++ b :: l3)) = false := by
  cases hs : sortVariants (l1 ++ a :: l2 ++ b :: l3) with
  | error e => rfl
  | ok s =>
    exfalso
    obtain ⟨hpw, hperm⟩ := sortVariants_ok hval hs
    have hpw2 : List.Pairwise (fun u v => Variant.overlap u v = false) s :=
      hpw.imp (fun h => h.1)
    have hsymm : ∀ {u v : Variant}, Variant.overlap u v = false →
        Variant.overlap v u = false := by
      intro u v h
      rw [overlap_symm]
      exact h
    have hpw3 : List.Pairwise (fun u v => Variant.overlap u v = false)
        (l1 ++ a :: l2 ++ b :: l3) := hpw2.perm hperm (fun hh => hsymm hh)
    have := (List.pairwise_append.mp hpw3).2.2 a
      (List.mem_append_right _ (List.mem_cons_self _ _)) b
      (List.mem_cons_self _ _)
    rw [hov] at this
    cases this

/-- Sorting a list that is already sorted and pairwise separated returns it
unchanged. -/
theorem sortVariants_sorted_id {l : List Variant}
    (h : List.Pairwise Separated l) : sortVariants l = Except.ok l := by
  induction l with
  | nil => rfl
  | cons x xs ih =>
    rw [List.pairwise_cons] at h
    obtain ⟨hx, hxs⟩ := h
    unfold sortVariants
    rw [ih hxs]
    show insertVariant x xs = Except.ok (x :: xs)
    cases xs with
    | nil => rfl
    | cons y ys =>
      unfold insertVariant
      have hlt : Variant.lt x y = Except.ok true := by
        rw [lt_ok_true_iff]
        have := hx y (List.mem_cons_self _ _)
        exact ⟨this.2, this.1⟩
      rw [hlt]
      rfl

/-- After the copy of the deletion has been dropped from the scanned list,
the deletion is re-inserted right before the remaining (later) variants. -/
theorem combineLoop_after_all {rest : List Variant} {d : Variant}
    (hd : d.start < d.stop)
    (hall : ∀ w ∈ rest, Separated d w) :
    combineLoop d rest = Except.ok (d :: rest) := by
  cases rest with
  | nil => rfl
  | cons w rest' =>
    have hsw := hall w (List.mem_cons_self _ _)
    have h2 : d.stop ≤ w.start := sep_end_le hsw
    have h3 : d.stop < w.stop := sep_stop_lt hsw
    unfold combineLoop
    rw [if_neg (by simp; omega)]
    rw [if_neg (by simp; omega)]
    rw [if_pos (by simp; omega)]

/-- Scanning a sorted separated list that contains the deletion itself (with
the same start, end and inserted sequence) reproduces the list unchanged:
the copy is dropped as `inside` and the deletion is re-inserted in its
place. -/
theorem combineLoop_mem_id {l : List Variant} {d : Variant}
    (hsep : List.Pairwise Separated l) (hmem : d ∈ l)
    (hd : d.start < d.stop) :
    combineLoop d l = Except.ok l := by
  induction l with
  | nil => cases hmem
  | cons u rest ih =>
    rw [List.pairwise_cons] at hsep
    obtain ⟨hu, hsep'⟩ := hsep
    rcases List.mem_cons.mp hmem with rfl | hmem'
    · unfold combineLoop
      rw [if_neg (by simp; omega)]
      rw [if_pos (by simp)]
      exact combineLoop_after_all hd hu
    · have hud : Separated u d := hu d hmem'
      have h1 : u.stop ≤ d.start := sep_end_le hud
      unfold combineLoop
      rw [if_pos (by simp; omega)]
      rw [ih hsep' hmem']
      rfl

/-- Scanning a sorted separated list raises when it contains a variant that
partially overlaps the deletion (overlapping, but neither before, after nor
inside it). -/
theorem combineLoop_error_of_partial {l : List Variant} {d : Variant}
    (hsep : List.Pairwise Separated l)
    (hex : ∃ v ∈ l, Variant.overlap v d = true ∧ Variant.before v d = false
      ∧ Variant.after v d = false ∧ Variant.inside v d = false) :
    exceptOk (combineLoop d l) = false := by
  induction l with
  | nil =>
    rcases hex with ⟨v, hv, _⟩
    cases hv
  | cons u rest ih =>
    rw [List.pairwise_cons] at hsep
    obtain ⟨hu, hsep'⟩ := hsep
    rcases hex with ⟨v, hv, hov, hbf, haf, hin⟩
    by_cases hPv : v = u
    · subst hPv
      unfold combineLoop
      rw [if_neg (by rw [hbf]; exact Bool.false_ne_true)]
      rw [if_neg (by rw [hin]; exact Bool.false_ne_true)]
      rw [if_neg (by rw [haf]; exact Bool.false_ne_true)]
      rfl
    · have hvrest : v ∈ rest := by
        rcases List.mem_cons.mp hv with rfl | h
        · exact absurd rfl hPv
        · exact h
      have hrec := ih hsep' ⟨v, hvrest, hov, hbf, haf, hin⟩
      have huv : Separated u v := hu v hvrest
      unfold combineLoop
      by_cases hb : Variant.before u d = true
      · rw [if_pos hb]
        cases hcl : combineLoop d rest with
        | error e => rfl
        | ok r =>
          rw [hcl] at hrec
          simp [exceptOk] at hrec
      · rw [if_neg hb]
        by_cases hi : Variant.inside u d = true
        · rw [if_pos hi]
          exact hrec
        · rw [if_neg hi]
          by_cases ha : Variant.after u d = true
          · exfalso
            -- a later variant cannot partially overlap once u is after d
            have h1 : u.start < v.start := huv.2
            rw [after_iff] at ha
            rw [Bool.eq_false_iff, Ne, after_iff] at haf
            omega
          · rw [if_neg ha]
            rfl

/-- Scanning raises when the deletion is inside a listed variant without
being exactly that variant's range: at that variant all four guards fail. -/
theorem combineLoop_error_of_inside {l : List Variant} {d v : Variant}
    (hsep : List.Pairwise Separated l) (hmem : v ∈ l)
    (h1 : v.start ≤ d.start) (h2 : d.stop ≤ v.stop) (h3 : d.start < d.stop)
    (h4 : d.start ≠ v.start ∨ d.stop ≠ v.stop) :
    exceptOk (combineLoop d l) = false := by
  induction l with
  | nil => cases hmem
  | cons u rest ih =>
    rw [List.pairwise_cons] at hsep
    obtain ⟨hu, hsep'⟩ := hsep
    rcases List.mem_cons.mp hmem with rfl | hmem'
    · unfold combineLoop
      rw [if_neg (by simp; omega)]
      rw [if_neg (by simp; omega)]
      rw [if_neg (by simp; omega)]
      rfl
    · have hud : Separated u v := hu v hmem'
      have hx : u.stop ≤ v.start := sep_end_le hud
      have hrec := ih hsep' hmem'
      unfold combineLoop
      rw [if_pos (by simp; omega)]
      cases hcl : combineLoop d rest with
      | error e => rfl
      | ok r =>
        rw [hcl] at hrec
        simp [exceptOk] at hrec

/-- C7: for a sorted, pairwise non overlapping variant list,
`combine_variants_deletion` raises a ValueError whenever the deletion
partially overlaps some variant of the list: the variant overlaps the
deletion but is neither wholly before it, wholly after it, nor inside it. -/
theorem combine_raises_on_partial_overlap (variants : List Variant)
    (d : Variant) (hsep : List.Pairwise Separated variants)
    (hex : ∃ v ∈ variants, Variant.overlap v d = true
      ∧ Variant.before v d = false ∧ Variant.after v d = false
      ∧ Variant.inside v d = false) :
    exceptOk (combine_variants_deletion variants d) = false := by
  unfold combine_variants_deletion
  rw [sortVariants_sorted_id hsep]
  exact combineLoop_error_of_partial hsep hex

/-- C7 witness: `combine_variants_deletion([Variant(2, 4)], Variant(3, 11))`
raises. -/
theorem combine_raises_on_partial_overlap_witness :
    (List.Pairwise Separated [Variant.mk 2 4 ""]
      ∧ (∃ v ∈ [Variant.mk 2 4 ""],
          Variant.overlap v (Variant.mk 3 11 "") = true
          ∧ Variant.before v (Variant.mk 3 11 "") = false
          ∧ Variant.after v (Variant.mk 3 11 "") = false
          ∧ Variant.inside v (Variant.mk 3 11 "") = false))
    ∧ exceptOk (combine_variants_deletion [Variant.mk 2 4 ""]
        (Variant.mk 3 11 "")) = false :=
  ⟨⟨by decide, by decide⟩,
    combine_raises_on_partial_overlap _ _ (by decide) (by decide)⟩

/-- C8 counterexample: a deletion strictly inside an already present
deletion variant raises a ValueError instead of being a no-op:
`combine_variants_deletion([Variant(2, 10)], Variant(3, 5))` fails, because
the scan checks `variant.inside(deletion)` but never
`deletion.inside(variant)`. -/
theorem combine_deletion_strictly_inside_raises :
    exceptOk (combine_variants_deletion [Variant.mk 2 10 ""]
        (Variant.mk 3 5 "")) = false
    ∧ combine_variants_deletion [Variant.mk 2 10 ""] (Variant.mk 3 5 "")
      ≠ Except.ok [Variant.mk 2 10 ""] := by
  refine ⟨by decide, by decide⟩

/-- C8 (amended): for a sorted, pairwise non overlapping variant list,
`combine_variants_deletion` is a no-op exactly when the (non degenerate)
deletion coincides with a variant already present (same start, end and
inserted sequence); when the deletion lies inside a listed variant whose
range differs from the deletion's, the call raises a ValueError instead. -/
theorem combine_noop_only_for_exact_deletion_match (variants : List Variant)
    (d v : Variant) (hsep : List.Pairwise Separated variants) :
    (d ∈ variants → d.start < d.stop →
      combine_variants_deletion variants d = Except.ok variants)
    ∧ (v ∈ variants → v.start ≤ d.start → d.stop ≤ v.stop →
        d.start < d.stop → (d.start ≠ v.start ∨ d.stop ≠ v.stop) →
        exceptOk (combine_variants_deletion variants d) = false) := by
  constructor
  · intro hmem hd
    unfold combine_variants_deletion
    rw [sortVariants_sorted_id hsep]
    exact combineLoop_mem_id hsep hmem hd
  · intro hmem h1 h2 h3 h4
    unfold combine_variants_deletion
    rw [sortVariants_sorted_id hsep]
    exact combineLoop_error_of_inside hsep hmem h1 h2 h3 h4

/-- C8 witness: the amended theorem applied at concrete inputs, exercising
both the exact-match no-op and the strictly-inside failure. -/
theorem combine_noop_only_for_exact_deletion_match_witness :
    (List.Pairwise Separated [Variant.mk 0 10 ""]
      ∧ combine_variants_deletion [Variant.mk 0 10 ""] (Variant.mk 0 10 "")
        = Except.ok [Variant.mk 0 10 ""])
    ∧ exceptOk (combine_variants_deletion [Variant.mk 2 10 ""]
        (Variant.mk 3 5 "")) = false :=
  ⟨⟨by decide,
    (combine_noop_only_for_exact_deletion_match [Variant.mk 0 10 ""]
      (Variant.mk 0 10 "") (Variant.mk 0 10 "") (by decide)).1 (by decide)
      (by decide)⟩,
    (combine_noop_only_for_exact_deletion_match [Variant.mk 2 10 ""]
      (Variant.mk 3 5 "") (Variant.mk 2 10 "") (by decide)).2 (by decide)
      (by decide) (by decide) (by decide) (by decide)⟩

/-- C6: comparing two overlapping variants with `<` raises a ValueError
instead of returning an order; `a < b` holds exactly when `a.start < b.start`
and the two do not overlap; consequently sorting any collection containing
two overlapping variants raises (the comparison failure propagates through
the sort); in particular `sorted([Variant(10, 11), Variant(10, 11)])`
raises. -/
theorem variant_sort_raises_on_overlap (a b : Variant)
    (l1 l2 l3 : List Variant)
    (hval : ∀ v ∈ l1 ++ a :: l2 ++ b :: l3, v.start ≤ v.stop)
    (hov : Variant.overlap a b = true) :
    exceptOk (Variant.lt a b) = false
    ∧ (∀ c d : Variant, Variant.lt c d = Except.ok true ↔
        (c.start < d.start ∧ Variant.overlap c d = false))
    ∧ exceptOk (sortVariants (l1 ++ a :: l2 ++ b :: l3)) = false
    ∧ exceptOk (sortVariants [Variant.mk 10 11 "", Variant.mk 10 11 ""])
        = false :=
  ⟨lt_error_of_overlap hov, lt_ok_true_iff,
    sortVariants_error_of_overlap_pair hval hov, by decide⟩

/-- C6 witness: the theorem applied to the concrete overlapping pair
`Variant(10, 11)`, `Variant(10, 11)`. -/
theorem variant_sort_raises_on_overlap_witness :
    ((∀ v ∈ ([] : List Variant) ++ Variant.mk 10 11 "" :: []
        ++ Variant.mk 10 11 "" :: [], v.start ≤ v.stop)
      ∧ Variant.overlap (Variant.mk 10 11 "") (Variant.mk 10 11 "") = true)
    ∧ (exceptOk (Variant.lt (Variant.mk 10 11 "") (Variant.mk 10 11 ""))
        = false
      ∧ (∀ c d : Variant, Variant.lt c d = Except.ok true ↔
          (c.start < d.start ∧ Variant.overlap c d = false))
      ∧ exceptOk (sortVariants (([] : List Variant) ++ Variant.mk 10 11 "" :: []
          ++ Variant.mk 10 11 "" :: [])) = false
      ∧ exceptOk (sortVariants [Variant.mk 10 11 "", Variant.mk 10 11 ""])
          = false) :=
  ⟨⟨by decide, by decide⟩,
    variant_sort_raises_on_overlap _ _ [] [] [] (by decide) (by decide)⟩

/-- C10: two zero length variants at the same position overlap each other
through the `inside` relation (each is inside the other), so comparing them
with `<` raises a ValueError, and no list containing both can be sorted,
even though they delete no positions at all. -/
theorem zero_length_variants_unorderable (p : Int) (s1 s2 : String)
    (l1 l2 l3 : List Variant)
    (hval : ∀ v ∈ l1 ++ Variant.mk p p s1 :: l2 ++ Variant.mk p p s2 :: l3,
      v.start ≤ v.stop) :
    Variant.inside (Variant.mk p p s1) (Variant.mk p p s2) = true
    ∧ Variant.overlap (Variant.mk p p s1) (Variant.mk p p s2) = true
    ∧ exceptOk (Variant.lt (Variant.mk p p s1) (Variant.mk p p s2)) = false
    ∧ exceptOk (sortVariants
        (l1 ++ Variant.mk p p s1 :: l2 ++ Variant.mk p p s2 :: l3)) = false := by
  have hin : Variant.inside (Variant.mk p p s1) (Variant.mk p p s2) = true := by
    simp
  have hov : Variant.overlap (Variant.mk p p s1) (Variant.mk p p s2) = true := by
    rw [overlap_iff]
    right
    right
    left
    exact ⟨le_refl p, le_refl p⟩
  exact ⟨hin, hov, lt_error_of_overlap hov,
    sortVariants_error_of_overlap_pair hval hov⟩

/-- C10 witness: two pure insertions at position 10. -/
theorem zero_length_variants_unorderable_witness :
    (∀ v ∈ ([] : List Variant) ++ Variant.mk 10 10 "A" :: []
        ++ Variant.mk 10 10 "T" :: [], v.start ≤ v.stop)
    ∧ (Variant.inside (Variant.mk 10 10 "A") (Variant.mk 10 10 "T") = true
      ∧ Variant.overlap (Variant.mk 10 10 "A") (Variant.mk 10 10 "T") = true
      ∧ exceptOk (Variant.lt (Variant.mk 10 10 "A") (Variant.mk 10 10 "T"))
          = false
      ∧ exceptOk (sortVariants (([] : List Variant)
          ++ Variant.mk 10 10 "A" :: [] ++ Variant.mk 10 10 "T" :: []))
          = false) :=
  ⟨by decide, zero_length_variants_unorderable 10 "A" "T" [] [] [] (by decide)⟩

/-- The decimal digit characters, for modelling Python `str` on integers. -/
def digitChar : Nat → Char
  | 0 => '0'
  | 1 => '1'
  | 2 => '2'
  | 3 => '3'
  | 4 => '4'
  | 5 => '5'
  | 6 => '6'
  | 7 => '7'
  | 8 => '8'
  | _ => '9'

/-- Model of Python `str` on a natural number: most significant digit first.
The fuel only makes the recursion structural; `n + 1` calls suffice since the
argument is divided by ten each step. -/
def natChars : Nat → Nat → List Char
  | 0, _ => []
  | fuel + 1, n =>
    if n < 10 then [digitChar n]
    else natChars fuel (n / 10) ++ [digitChar (n % 10)]

def natToChars (n : Nat) : List Char := natChars (n + 1) n

/-- Model of the digit test and value inside Python `int`. -/
def digitVal (c : Char) : Option Nat :=
  if 48 ≤ c.toNat ∧ c.toNat ≤ 57 then some (c.toNat - 48) else none

/-- The accumulating loop of Python `int` over decimal characters. -/
def parseNatFold : Nat → List Char → Option Nat
  | acc, [] => some acc
  | acc, c :: cs =>
    match digitVal c with
    | none => none
    | some d => parseNatFold (acc * 10 + d) cs

/-- Model of Python `int` on a non negative decimal string: `none` models the
raised ValueError. -/
def parseNatChars (cs : List Char) : Option Nat :=
  if cs.isEmpty then none else parseNatFold 0 cs

/-- Model of Python `str` on an integer. -/
def intToChars (i : Int) : List Char :=
  if i < 0 then '-' :: natToChars (- i).toNat else natToChars i.toNat

/-- Model of Python `int` on a decimal string with an optional leading
minus sign. -/
def parseIntChars (cs : List Char) : Option Int :=
  match cs with
  | [] => none
  | c :: rest =>
    if c = '-' then (parseNatChars rest).map (fun n => - (n : Int))
    else (parseNatChars (c :: rest)).map (fun n => (n : Int))

example : intToChars 1234 = ['1', '2', '3', '4'] := by decide
example : intToChars (-20) = ['-', '2', '0'] := by decide
example : parseIntChars ['-', '2', '0'] = some (-20) := by decide
example : parseIntChars ['x'] = none := by decide

theorem digitChar_bounds (d : Nat) :
    48 ≤ (digitChar d).toNat ∧ (digitChar d).toNat ≤ 57 := by
  unfold digitChar
  split <;> decide

theorem digitVal_digitChar {d : Nat} (h : d < 10) :
    digitVal (digitChar d) = some d := by
  interval_cases d <;> decide

theorem natChars_digits :
    ∀ (fuel n : Nat), n < fuel →
      ∀ c ∈ natChars fuel n, 48 ≤ c.toNat ∧ c.toNat ≤ 57 := by
  intro fuel
  induction fuel with
  | zero => omega
  | succ fuel ih =>
    intro n hn c hc
    unfold natChars at hc
    by_cases h10 : n < 10
    · rw [if_pos h10] at hc
      rw [List.mem_singleton] at hc
      subst hc
      exact digitChar_bounds n
    · rw [if_neg h10] at hc
      rcases List.mem_append.mp hc with h | h
      · exact ih (n / 10) (by omega) c h
      · rw [List.mem_singleton] at h
        subst h
        exact digitChar_bounds _

theorem natChars_ne_nil (fuel n : Nat) (h : n < fuel) :
    natChars fuel n ≠ [] := by
  cases fuel with
  | zero => omega
  | succ fuel =>
    unfold natChars
    by_cases h10 : n < 10
    · rw [if_pos h10]
      exact List.cons_ne_nil _ _
    · rw [if_neg h10]
      simp

theorem parseNatFold_append (acc : Nat) (xs ys : List Char) :
    parseNatFold acc (xs ++ ys)
      = match parseNatFold acc xs with
        | none => none
        | some a => parseNatFold a ys := by
  induction xs generalizing acc with
  | nil => rfl
  | cons c cs ih =>
    simp only [List.cons_append, parseNatFold]
    cases hdv : digitVal c with
    | none => simp [hdv]
    | some d => simp [hdv, ih]

theorem parseNatFold_natChars :
    ∀ (fuel n acc : Nat), n < fuel →
      parseNatFold acc (natChars fuel n)
        = some (acc * 10 ^ (natChars fuel n).length + n) := by
  intro fuel
  induction fuel with
  | zero => omega
  | succ fuel ih =>
    intro n acc hn
    unfold natChars
    by_cases h10 : n < 10
    · rw [if_pos h10]
      unfold parseNatFold
      rw [digitVal_digitChar h10]
      simp [parseNatFold]
    · rw [if_neg h10]
      rw [parseNatFold_append]
      rw [ih (n / 10) acc (by omega)]
      unfold parseNatFold
      rw [digitVal_digitChar (Nat.mod_lt n (by omega))]
      simp [parseNatFold, List.length_append]
      ring_nf
      omega

theorem parseNatChars_natToChars (n : Nat) :
    parseNatChars (natToChars n) = some n := by
  unfold parseNatChars natToChars
  rw [if_neg (by
    simp only [List.isEmpty_eq_true]
    exact natChars_ne_nil _ _ (Nat.lt_succ_self n))]
  rw [parseNatFold_natChars (n + 1) n 0 (Nat.lt_succ_self n)]
  simp

theorem parseIntChars_intToChars (i : Int) :
    parseIntChars (intToChars i) = some i := by
  unfold intToChars
  by_cases hneg : i < 0
  · rw [if_pos hneg]
    simp only [parseIntChars, if_true]
    rw [parseNatChars_natToChars]
    simp [Int.toNat_of_nonneg (by omega : (0 : Int) ≤ - i)]
  · rw [if_neg hneg]
    cases hc : natToChars i.toNat with
    | nil => exact absurd hc (natChars_ne_nil _ _ (Nat.lt_succ_self _))
    | cons c rest =>
      have hmem : c ∈ natChars (i.toNat + 1) i.toNat := by
        show c ∈ natToChars i.toNat
        rw [hc]
        exact List.mem_cons_self _ _
      have hdig := natChars_digits _ _ (Nat.lt_succ_self _) c hmem
      simp only [parseIntChars]
      rw [if_neg (by
        intro h
        rw [h] at hdig
        exact absurd hdig (by decide))]
      rw [← hc, parseNatChars_natToChars]
      simp [Int.toNat_of_nonneg (not_lt.mp hneg)]

theorem intToChars_ne_nil (i : Int) : intToChars i ≠ [] := by
  unfold intToChars
  by_cases hneg : i < 0
  · rw [if_pos hneg]
    exact List.cons_ne_nil _ _
  · rw [if_neg hneg]
    exact natChars_ne_nil _ _ (Nat.lt_succ_self _)

theorem mem_intToChars {i : Int} {c : Char} (h : c ∈ intToChars i) :
    c = '-' ∨ (48 ≤ c.toNat ∧ c.toNat ≤ 57) := by
  unfold intToChars at h
  by_cases hneg : i < 0
  · rw [if_pos hneg] at h
    rcases List.mem_cons.mp h with rfl | h'
    · exact Or.inl rfl
    · exact Or.inr (natChars_digits _ _ (Nat.lt_succ_self _) c h')
  · rw [if_neg hneg] at h
    exact Or.inr (natChars_digits _ _ (Nat.lt_succ_self _) c h)

theorem comma_not_mem_intToChars (i : Int) : ',' ∉ intToChars i := by
  intro h
  rcases mem_intToChars h with h' | h'
  · exact absurd h' (by decide)
  · exact absurd h' (by decide)

/-- Model of Python `str.split(sep)`: splits at every separator, keeping
empty pieces. -/
def splitChar (sep : Char) : List Char → List (List Char)
  | [] => [[]]
  | c :: cs =>
    if c = sep then [] :: splitChar sep cs
    else
      match splitChar sep cs with
      | [] => [[c]]
      | g :: gs => (c :: g) :: gs

/-- Model of Python `sep.join(...)` on character lists. -/
def joinChar (sep : Char) : List (List Char) → List Char
  | [] => []
  | [x] => x
  | x :: xs => x ++ sep :: joinChar sep xs

example : splitChar ',' ['1', ',', ',', '2'] = [['1'], [], ['2']] := by decide
example : joinChar ',' [['1'], [], ['2']] = ['1', ',', ',', '2'] := by decide

theorem splitChar_ne_nil (sep : Char) (cs : List Char) :
    splitChar sep cs ≠ [] := by
  induction cs with
  | nil => exact List.cons_ne_nil _ _
  | cons c cs ih =>
    unfold splitChar
    by_cases h : c = sep
    · rw [if_pos h]
      exact List.cons_ne_nil _ _
    · rw [if_neg h]
      cases hs : splitChar sep cs with
      | nil => exact absurd hs ih
      | cons g gs => exact List.cons_ne_nil _ _

theorem splitChar_no_sep {sep : Char} {cs : List Char} (h : sep ∉ cs) :
    splitChar sep cs = [cs] := by
  induction cs with
  | nil => rfl
  | cons c cs ih =>
    have hc : c ≠ sep := fun hh => h (by rw [hh]; exact List.mem_cons_self _ _)
    have hcs : sep ∉ cs := fun hh => h (List.mem_cons_of_mem _ hh)
    unfold splitChar
    rw [if_neg hc, ih hcs]

theorem splitChar_append {sep : Char} {x t : List Char} (h : sep ∉ x) :
    splitChar sep (x ++ sep :: t) = x :: splitChar sep t := by
  induction x with
  | nil =>
    show splitChar sep (sep :: t) = [] :: splitChar sep t
    simp only [splitChar, if_true]
  | cons c x' ih =>
    have hc : c ≠ sep := fun hh => h (by rw [hh]; exact List.mem_cons_self _ _)
    have hx : sep ∉ x' := fun hh => h (List.mem_cons_of_mem _ hh)
    show splitChar sep (c :: (x' ++ sep :: t)) = (c :: x') :: splitChar sep t
    simp only [splitChar]
    rw [if_neg hc, ih hx]

theorem splitChar_joinChar {sep : Char} :
    ∀ {l : List (List Char)}, l ≠ [] → (∀ s ∈ l, sep ∉ s) →
      splitChar sep (joinChar sep l) = l := by
  intro l
  induction l with
  | nil => intro h; exact absurd rfl h
  | cons x xs ih =>
    intro _ hall
    cases xs with
    | nil =>
      show splitChar sep (joinChar sep [x]) = [x]
      unfold joinChar
      exact splitChar_no_sep (hall x (List.mem_cons_self _ _))
    | cons y ys =>
      show splitChar sep (joinChar sep (x :: y :: ys)) = x :: y :: ys
      simp only [joinChar]
      rw [splitChar_append (hall x (List.mem_cons_self _ _))]
      rw [ih (List.cons_ne_nil _ _) (fun s hs => hall s (List.mem_cons_of_mem _ hs))]

theorem mapM_map_roundtrip {α β : Type} {f : α → β} {g : β → Option α}
    (h : ∀ a, g (f a) = some a) : ∀ l : List α, (l.map f).mapM g = some l := by
  intro l
  induction l with
  | nil => rfl
  | cons a l ih =>
    rw [List.map_cons, List.mapM_cons, h a, ih]
    rfl

theorem csv_roundtrip {l : List Int} (h : l ≠ []) :
    (splitChar ',' (joinChar ',' (l.map intToChars))).mapM parseIntChars
      = some l := by
  rw [splitChar_joinChar (by simp [h]) (by
    intro s hs
    rcases List.mem_map.mp hs with ⟨i, _, rfl⟩
    exact comma_not_mem_intToChars i)]
  exact mapM_map_roundtrip parseIntChars_intToChars l

theorem csv_roundtrip_filtered (l : List Int) :
    ((splitChar ',' (joinChar ',' (l.map intToChars))).filter
      (fun s => ! s.isEmpty)).mapM parseIntChars = some l := by
  cases l with
  | nil => rfl
  | cons x xs =>
    rw [splitChar_joinChar (by simp) (by
      intro s hs
      rcases List.mem_map.mp hs with ⟨i, _, rfl⟩
      exact comma_not_mem_intToChars i)]
    rw [List.filter_eq_self.mpr (by
      intro s hs
      rcases List.mem_map.mp hs with ⟨i, _, rfl⟩
      simp [intToChars_ne_nil i])]
    exact mapM_map_roundtrip parseIntChars_intToChars _

/-- The twelve field strings of `Bed.__str__` from src/GTGT/bed.py, each as a
character list: chrom, chromStart, chromEnd, name, score, strand, thickStart,
thickEnd, itemRgb as "r,g,b", blockCount, blockSizes and blockStarts as
comma separated values. -/
def serializeFields (b : Bed) : List (List Char) :=
  [b.chrom.data, intToChars b.chromStart, intToChars b.chromEnd, b.name.data,
    intToChars b.score, b.strand.data, intToChars b.thickStart,
    intToChars b.thickEnd, joinChar ',' (b.itemRgb.map intToChars),
    intToChars b.blockCount, joinChar ',' (b.blockSizes.map intToChars),
    joinChar ',' (b.blockStarts.map intToChars)]

/-- The full BED line of `Bed.__str__`: the twelve fields joined by tabs. -/
def bedLine (b : Bed) : String :=
  String.mk (joinChar '\t' (serializeFields b))

/-- Embedding of `Bed(*line.split("\t"))`: construction from the twelve
field strings, mirroring the string branches of `Bed.__init__` (integers via
`int`, itemRgb split on commas, blockSizes and blockStarts split on commas
with empty pieces dropped).  `none` models a raised ValueError. -/
def parseFields (fs : List (List Char)) : Option Bed :=
  match fs with
  | [chrom, cS, cE, nm, sc, strand, tS, tE, rgb, bc, bsz, bst] => do
    let cS' ← parseIntChars cS
    let cE' ← parseIntChars cE
    let sc' ← parseIntChars sc
    let tS' ← parseIntChars tS
    let tE' ← parseIntChars tE
    let rgb' ← (splitChar ',' rgb).mapM parseIntChars
    let bc' ← parseIntChars bc
    let bsz' ← ((splitChar ',' bsz).filter (fun s => ! s.isEmpty)).mapM
      parseIntChars
    let bst' ← ((splitChar ',' bst).filter (fun s => ! s.isEmpty)).mapM
      parseIntChars
    some (Bed.mk (String.mk chrom) cS' cE' (String.mk nm) sc'
      (String.mk strand) tS' tE' rgb' bc' bsz' bst')
  | _ => none

/-- The construction invariants of spec section 3 for a Bed record: three
itemRgb components, matching block arrays with blockCount equal to their
length, thickStart before thickEnd, blocks sorted ascending and non
overlapping, the first block starting at chromStart and the last ending at
chromEnd. -/
def bedWellFormed (b : Bed) : Prop :=
  b.itemRgb.length = 3
  ∧ b.blockSizes.length = b.blockStarts.length
  ∧ b.blockCount = Int.ofNat b.blockSizes.length
  ∧ b.thickStart ≤ b.thickEnd
  ∧ b.chromStart ≤ b.chromEnd
  ∧ List.Pairwise (fun r s : Range => r.2 ≤ s.1) b.blocks
  ∧ b.blocks.head?.map Prod.fst = some b.chromStart
  ∧ b.blocks.getLast?.map Prod.snd = some b.chromEnd

instance : DecidablePred bedWellFormed := fun b =>
  inferInstanceAs (Decidable (b.itemRgb.length = 3
    ∧ b.blockSizes.length = b.blockStarts.length
    ∧ b.blockCount = Int.ofNat b.blockSizes.length
    ∧ b.thickStart ≤ b.thickEnd
    ∧ b.chromStart ≤ b.chromEnd
    ∧ List.Pairwise (fun r s : Range => r.2 ≤ s.1) b.blocks
    ∧ b.blocks.head?.map Prod.fst = some b.chromStart
    ∧ b.blocks.getLast?.map Prod.snd = some b.chromEnd))

theorem parseFields_serializeFields (b : Bed) (hrgb : b.itemRgb ≠ []) :
    parseFields (serializeFields b) = some b := by
  unfold serializeFields parseFields
  dsimp only []
  rw [parseIntChars_intToChars, parseIntChars_intToChars,
    parseIntChars_intToChars, parseIntChars_intToChars,
    parseIntChars_intToChars, parseIntChars_intToChars,
    csv_roundtrip hrgb, csv_roundtrip_filtered, csv_roundtrip_filtered]
  rfl

/-- C9: `Bed("chr1", 0, 11)` serializes to exactly the 12 field tab
separated line "chr1\t0\t11\t.\t0\t.\t0\t11\t0,0,0\t1\t11\t0", constructing
a Bed from those field strings returns an equal record, and in general for
every well formed Bed record parsing the serialized field strings is the
identity. -/
theorem bed_serialization_roundtrip (b : Bed) (h : bedWellFormed b) :
    parseFields (serializeFields b) = some b
    ∧ bedLine (bedDefault "chr1" 0 11)
      = "chr1\t0\t11\t.\t0\t.\t0\t11\t0,0,0\t1\t11\t0"
    ∧ parseFields (serializeFields (bedDefault "chr1" 0 11))
      = some (bedDefault "chr1" 0 11) := by
  refine ⟨parseFields_serializeFields b ?_, by decide, by decide⟩
  obtain ⟨h3, _⟩ := h
  intro hnil
  rw [hnil] at h3
  simp at h3

/-- C9 witness: the round trip theorem applied to `Bed("chr1", 0, 11)`. -/
theorem bed_serialization_roundtrip_witness :
    bedWellFormed (bedDefault "chr1" 0 11)
    ∧ (parseFields (serializeFields (bedDefault "chr1" 0 11))
        = some (bedDefault "chr1" 0 11)
      ∧ bedLine (bedDefault "chr1" 0 11)
        = "chr1\t0\t11\t.\t0\t.\t0\t11\t0,0,0\t1\t11\t0"
      ∧ parseFields (serializeFields (bedDefault "chr1" 0 11))
        = some (bedDefault "chr1" 0 11)) :=
  ⟨by decide, bed_serialization_roundtrip (bedDefault "chr1" 0 11) (by decide)⟩
